import Mathlib

/-!
Verification development for the louis braille graphics library (louis.h).

The C code is shallowly embedded as follows:
* C `float` values are modelled as exact rationals (ℚ).  Every concrete
  input used in a theorem below is exactly representable as a binary
  float, so the modelled behaviour agrees with the compiled program on
  those inputs.
* a C cast `(int)` of a float is truncation toward zero, modelled by
  `truncQ`; C integer division of `int`s is `Int.tdiv` (truncation).
* `unsigned char` cells are naturals; the surface buffer is a `List ℕ`
  and pointer writes become `List.set`.
* the two `while` loops (`drawLine`, `drawCurve`) are embedded with an
  explicit fuel argument; a result of `none` means the loop has not
  finished within the given fuel.  A loop that returns `none` for every
  fuel value does not terminate.
* `render`'s `memcpy` of 3 bytes from an `int` table entry is modelled
  by `bytes3LE`, the first three bytes of the little-endian layout the
  code assumes.
-/

namespace Louis

/-- C cast of a float (here: rational) to `int`: truncation toward zero. -/
def truncQ (q : ℚ) : ℤ := Int.tdiv q.num q.den

/-- Rounding to the nearest integer with halves upward, the reading the
spec gives for the rounding in `drawPoint` (round-half-up on the reals is
`⌊q + 1/2⌋`). -/
def roundHalfUp (q : ℚ) : ℤ := ⌊q + 1/2⌋

/-- The helper `fRound` of louis.h (line 80): `return (int)(n + 0.5);`. -/
def fRound (n : ℚ) : ℤ := truncQ (n + 1/2)

/-- The helper `fAbs` of louis.h (line 75): `(a > b) ? (a - b) : (b - a)`. -/
def fAbs (a b : ℚ) : ℚ := if a > b then a - b else b - a

/-- The dot-position table `braillePositionVals` of louis.h (line 62). -/
def braillePositionVals : List ℕ := [64, 128, 4, 32, 2, 16, 1, 8]

/-- The `Surface` struct of louis.h (line 64): a cell buffer of bytes plus
its dimensions in character cells. -/
structure Surface where
  data : List ℕ
  width : ℕ
  height : ℕ
deriving DecidableEq, Repr

/-- Cell buffer offset computed by `drawPoint` (louis.h line 140):
`(width * height) - width - ((y / 4) * width) + (x / 2)`, for an already
rounded, in-range pixel coordinate. -/
def cellOffset (w h x y : ℕ) : ℕ :=
  w * h - w - y / 4 * w + x / 2

/-- Index into `braillePositionVals` computed by `drawPoint` (louis.h
line 143): `((y % 4) * 2) + (x % 2)`. -/
def dotIndex (x y : ℕ) : ℕ := y % 4 * 2 + x % 2

/-- The function `drawPoint` of louis.h (line 132).  Returns the C return
value together with the surface after the call (C mutates through a
pointer).  The `value` parameter is the C `int` used as a boolean. -/
def drawPoint (s : Surface) (fx fy : ℚ) (value : Bool) : ℤ × Surface :=
  let x := fRound fx
  let y := fRound fy
  if x < 0 ∨ y < 0 ∨ (s.width : ℤ) * 2 ≤ x ∨ (s.height : ℤ) * 4 ≤ y then
    (-1, s)
  else
    let xn := x.toNat
    let yn := y.toNat
    let off := cellOffset s.width s.height xn yn
    let posVal := braillePositionVals.getD (dotIndex xn yn) 0
    let oldByte := s.data.getD off 0
    let newByte := if value then oldByte ||| posVal else oldByte &&& (255 ^^^ posVal)
    (0, { s with data := s.data.set off newByte })

/-- Reading one dot back from a surface: the bit that `drawPoint` would
address at pixel `(x, y)`, tested against the cell byte.  louis.h has no
explicit reader; this is the evident readback used to state the spec
sentence about plotting then reading a dot. -/
def readDot (s : Surface) (x y : ℕ) : Bool :=
  (s.data.getD (cellOffset s.width s.height x y) 0 &&&
    braillePositionVals.getD (dotIndex x y) 0) != 0

/-- Slope computed by `drawLine` (louis.h line 169) for `x1 ≠ x2`. -/
def lineSlope (x1 y1 x2 y2 : ℚ) : ℚ := (y2 - y1) / (x2 - x1)

/-- Y intercept computed by `drawLine` (louis.h line 170). -/
def lineYint (x1 y1 x2 y2 : ℚ) : ℚ := y1 - lineSlope x1 y1 x2 y2 * x1

/-- The `while` loop of `drawLine` (louis.h lines 174-188), fuel-bounded.
Returns the list of points handed to `drawPoint` after the initial plot of
`(x1, y1)`, or `none` if the guard is still true when fuel runs out.  The
`inf` flag and the `slope`/`yint` values are set up once before the loop,
exactly as in the C code. -/
def drawLineLoop (inf : Bool) (slope yint x2 y2 : ℚ) :
    ℕ → ℚ → ℚ → Option (List (ℚ × ℚ))
  | 0, x1, y1 =>
    if fAbs x1 x2 > 1 ∨ fAbs y1 y2 > 1 then none else some []
  | fuel + 1, x1, y1 =>
    if fAbs x1 x2 > 1 ∨ fAbs y1 y2 > 1 then
      let next : ℚ × ℚ :=
        if inf then
          (x1, y1 + if y1 < y2 then 1 else -1)
        else if slope < 1 then
          let xs := x1 + if x1 < x2 then 1 else -1
          (xs, xs * slope + yint)
        else
          let ys := y1 + if y1 < y2 then 1 else -1
          ((ys - yint) / slope, ys)
      (drawLineLoop inf slope yint x2 y2 fuel next.1 next.2).map (next :: ·)
    else some []

/-- The function `drawLine` of louis.h (line 160), as the list of points it
passes to `drawPoint` (the initial point first).  When `x1 = x2` the C code
leaves `slope` and `yint` uninitialized and never reads them; the embedding
passes the (unused) division-by-zero values instead. -/
def drawLinePoints (fuel : ℕ) (x1 y1 x2 y2 : ℚ) : Option (List (ℚ × ℚ)) :=
  (drawLineLoop (decide (x1 = x2)) (lineSlope x1 y1 x2 y2) (lineYint x1 y1 x2 y2)
      x2 y2 fuel x1 y1).map ((x1, y1) :: ·)

/-- Successive `drawPoint` calls with value 1, as performed by `drawLine`
and `drawCurve` (return codes are discarded by the C code). -/
def plotList (s : Surface) (pts : List (ℚ × ℚ)) : Surface :=
  pts.foldl (fun t p => (drawPoint t p.1 p.2 true).2) s

/-- The surface effect of `drawLine`, fuel-bounded. -/
def drawLine (fuel : ℕ) (s : Surface) (x1 y1 x2 y2 : ℚ) : Option Surface :=
  (drawLinePoints fuel x1 y1 x2 y2).map (plotList s)

/-- Rounded pixel coordinates of a list of plotted points. -/
def dotsOf (pts : List (ℚ × ℚ)) : List (ℤ × ℤ) :=
  pts.map fun p => (fRound p.1, fRound p.2)

/-- The Y value `drawCurve` computes for a sample (louis.h lines 205-208):
the quadratic is evaluated in float, assigned to an `int` (truncation
toward zero), then divided by 10 in `int` arithmetic (truncation). -/
def curveY (a b c x : ℚ) : ℤ :=
  Int.tdiv (truncQ (a * (x * x) + b * x + c)) 10

/-- The `while` loop of `drawCurve` (louis.h lines 201-211), fuel-bounded:
while `x1 < x2`, step `x1` by 0.2 and then sample.  Returns the points
handed to `drawPoint`. -/
def drawCurveLoop (x2 a b c : ℚ) : ℕ → ℚ → Option (List (ℚ × ℚ))
  | 0, x1 => if x1 < x2 then none else some []
  | fuel + 1, x1 =>
    if x1 < x2 then
      let xs := x1 + 1/5
      (drawCurveLoop x2 a b c fuel xs).map ((xs, (curveY a b c xs : ℚ)) :: ·)
    else some []

/-- The function `drawCurve` of louis.h (line 198), as the list of sampled
points. -/
def drawCurvePoints (fuel : ℕ) (x1 x2 a b c : ℚ) : Option (List (ℚ × ℚ)) :=
  drawCurveLoop x2 a b c fuel x1

/-- Modelled from the spec wording of claim C8 (spec §4.3), for comparison
with `drawCurvePoints`: samples the quadratic at X steps of 0.2 starting at
`xStart` itself while the current x is below `xEnd`, and the sampled Y is
the quadratic value divided by 10 and then rounded. -/
def drawCurveSpecLoop (x2 a b c : ℚ) : ℕ → ℚ → Option (List (ℚ × ℚ))
  | 0, x1 => if x1 < x2 then none else some []
  | fuel + 1, x1 =>
    if x1 < x2 then
      (drawCurveSpecLoop x2 a b c fuel (x1 + 1/5)).map
        ((x1, (roundHalfUp ((a * (x1 * x1) + b * x1 + c) / 10) : ℚ)) :: ·)
    else some []

/-- Claim-side curve sampler, wrapped like `drawCurvePoints`. -/
def drawCurveSpecPoints (fuel : ℕ) (x1 x2 a b c : ℚ) : Option (List (ℚ × ℚ)) :=
  drawCurveSpecLoop x2 a b c fuel x1

/-- The function `utf8Encode` of louis.h (line 96): the three UTF-8 bytes
of a code point in `0x800-0xFFFF`, packed into an int little-endian
(`(enc3 << 16) | (enc2 << 8) | enc1`). -/
def utf8Encode (cp : ℕ) : ℕ :=
  let enc1 := 0xE0 ||| (cp &&& 0xF000) >>> 12
  let enc2 := 0x80 ||| (cp &&& 0x0FC0) >>> 6
  let enc3 := 0x80 ||| cp &&& 0x003F
  enc3 <<< 16 ||| enc2 <<< 8 ||| enc1

/-- Entry `i` of the table built by `genBrailleTab` (louis.h line 115):
`brailleTab[i] = utf8Encode(0x2800 + i)`. -/
def brailleTab (i : ℕ) : ℕ := utf8Encode (0x2800 + i)

/-- The three bytes `memcpy(p, brailleTab + v, 3)` copies out of a table
entry on the little-endian machines the code targets. -/
def bytes3LE (n : ℕ) : List ℕ := [n % 256, n / 256 % 256, n / 65536 % 256]

/-- Decoding the code point back out of a 3-byte UTF-8 sequence
`1110xxxx 10xxxxxx 10xxxxxx`; used to state claim C9. -/
def utf8Decode3 (bs : List ℕ) : ℕ :=
  (bs.getD 0 0 &&& 0xF) <<< 12 ||| (bs.getD 1 0 &&& 0x3F) <<< 6 ||| bs.getD 2 0 &&& 0x3F

/-- Bytes of the hide-cursor control sequence `"\x1b[?25l"` (louis.h
line 274). -/
def hideCursorSeq : List ℕ := [0x1B, 0x5B, 0x3F, 0x32, 0x35, 0x6C]

/-- Bytes of the cursor-home control sequence `"\x1b[H]"` without the
bracket typo: `"\x1b[H"` (louis.h lines 276 and 282). -/
def cursorHomeSeq : List ℕ := [0x1B, 0x5B, 0x48]

/-- The glyph loop of `render` (louis.h lines 278-281): each cell byte is
expanded to the three bytes of its table entry, in buffer order. -/
def renderBody : List ℕ → List ℕ
  | [] => []
  | b :: rest => bytes3LE (brailleTab b) ++ renderBody rest

/-- The byte stream `render` (louis.h line 267) writes to stdout:
hide-cursor, cursor-home, the encoded cells, cursor-home.  The write is of
exactly `len * 3 + 12` bytes. -/
def render (s : Surface) : List ℕ :=
  hideCursorSeq ++ cursorHomeSeq ++ renderBody s.data ++ cursorHomeSeq

/-- The function `littleToBigEndian` of louis.h (line 85): read a 4-byte
little-endian integer out of a byte buffer. -/
def littleToBigEndian (buf : List ℕ) (off : ℕ) : ℕ :=
  buf.getD off 0 ||| buf.getD (off + 1) 0 <<< 8 |||
    buf.getD (off + 2) 0 <<< 16 ||| buf.getD (off + 3) 0 <<< 24

/-- Per-pixel thresholding done by `loadBitmap` (louis.h lines 366-370):
`pixel = (r << 24) | (g << 16) | (b << 8); *bp++ = pixel ? 0 : 1;`. -/
def decodePixel (r g b : ℕ) : ℕ :=
  if r <<< 24 ||| g <<< 16 ||| b <<< 8 = 0 then 1 else 0

/-- Modelled from the spec wording of claim C1 (spec §4.5), for comparison
with `decodePixel`: one output byte per pixel, 0 if the pixel is exactly
white (R=G=B=0xFF), else 1. -/
def decodePixelSpec (r g b : ℕ) : ℕ :=
  if r = 0xFF ∧ g = 0xFF ∧ b = 0xFF then 0 else 1

/-- The function `loadBitmap` of louis.h (line 329), with the file already
read into `buf`: width, height and data offset come from the fixed header
offsets, and each pixel is a blue-green-red triple thresholded by
`decodePixel`. -/
def loadBitmap (buf : List ℕ) : Surface :=
  let w := littleToBigEndian buf 0x12
  let h := littleToBigEndian buf 0x16
  let off := littleToBigEndian buf 0x0A
  { width := w
    height := h
    data := (List.range (h * w)).map fun i =>
      decodePixel (buf.getD (off + i * 3 + 2) 0) (buf.getD (off + i * 3 + 1) 0)
        (buf.getD (off + i * 3) 0) }

/-- Header of a 2-by-2 synthetic raster: data offset 26 at 0x0A, width 2 at
0x12, height 2 at 0x16, pixel data immediately after the header. -/
def bmpHeader2x2 : List ℕ :=
  [0, 0, 0, 0, 0, 0, 0, 0, 0, 0, 26, 0, 0, 0, 0, 0, 0, 0, 2, 0, 0, 0, 2, 0, 0, 0]

/-- Synthetic 2-by-2 all-white raster file. -/
def whiteBmp2x2 : List ℕ := bmpHeader2x2 ++ List.replicate 12 0xFF

/-- Synthetic 2-by-2 all-black raster file. -/
def blackBmp2x2 : List ℕ := bmpHeader2x2 ++ List.replicate 12 0

/-- Expected sequence of plotted Y values for a vertical line between the
integers y1 and y2: y1 first, stepping by one toward y2, stopping one short
of y2 (when the endpoints differ).  This is what the vertical branch of the
rasterizer produces; it is used to state the amended line-symmetry claim. -/
def vertYs (y1 y2 : ℤ) : List ℤ :=
  if y1 = y2 then [y1]
  else if y1 < y2 then (List.range (y2 - y1).toNat).map (fun i : ℕ => y1 + (i : ℤ))
  else (List.range (y1 - y2).toNat).map (fun i : ℕ => y1 - (i : ℤ))

/-!  Theorems. -/

/-- C1 (code defect): `loadBitmap` writes 0 for every pixel whose three
components are not all zero, not only for pure white pixels.  A mid-gray
pixel (R=G=B=0x80) decodes to 0, where the claim (and the comment above
`loadBitmap`) require 1.  The round-trip halves of the claim do hold: an
all-white 2x2 raster decodes to all zeros and an all-black one to all
ones. -/
theorem loadBitmap_threshold_eval :
    decodePixel 0x80 0x80 0x80 = 0 ∧ decodePixelSpec 0x80 0x80 0x80 = 1 ∧
    (loadBitmap whiteBmp2x2).data = [0, 0, 0, 0] ∧
    (loadBitmap blackBmp2x2).data = [1, 1, 1, 1] := by
  refine ⟨by decide, by decide, by decide, by decide⟩

/-- C2 (counterexample): at `x = -3/4` the rounding `drawPoint` performs is
not round-half-up.  Round-half-up gives -1, which is out of range, so the
claim demands a -1 return and no mutation; the code rounds to 0, returns 0
and sets a bit. -/
theorem drawPoint_not_roundHalfUp :
    roundHalfUp (-3/4 : ℚ) = -1 ∧ fRound (-3/4 : ℚ) = 0 ∧
    drawPoint ⟨[0], 1, 1⟩ (-3/4) 0 true = (0, ⟨[64], 1, 1⟩) := by
  exact ⟨by with_unfolding_all rfl, by with_unfolding_all rfl, by with_unfolding_all rfl⟩

/-- C2 (amended): `drawPoint` converts each coordinate with
`trunc(c + 1/2)` toward zero, which agrees with round-half-up whenever the
coordinate is at least -1/2; it returns -1 exactly when the converted point
lies outside `0 ≤ x < 2*width`, `0 ≤ y < 4*height`, and in that case no
byte of the surface is mutated. -/
theorem drawPoint_bounds (s : Surface) (fx fy : ℚ) (v : Bool) :
    ((drawPoint s fx fy v).1 = -1 ↔
      (fRound fx < 0 ∨ fRound fy < 0 ∨ (s.width : ℤ) * 2 ≤ fRound fx ∨
        (s.height : ℤ) * 4 ≤ fRound fy)) ∧
    ((drawPoint s fx fy v).1 = -1 → (drawPoint s fx fy v).2 = s) ∧
    (∀ q : ℚ, -(1/2) ≤ q → fRound q = roundHalfUp q) := by
  refine ⟨?_, ?_, ?_⟩
  · simp only [drawPoint]
    split
    next h => simpa using h
    next h => simpa using h
  · simp only [drawPoint]
    split
    · intro _; rfl
    · intro h; simp at h
  · intro q hq
    have h0 : (0 : ℚ) ≤ q + 1/2 := by linarith
    show Int.tdiv (q + 1/2).num (q + 1/2).den = ⌊q + 1/2⌋
    rw [Int.tdiv_eq_ediv (Rat.num_nonneg.mpr h0) (Int.natCast_nonneg _), Rat.floor_def]

/-- C2 witness: a concrete out-of-range call returns -1 and leaves the
surface unchanged, and a concrete nonnegative coordinate rounds half-up. -/
theorem drawPoint_bounds_witness :
    (drawPoint ⟨[0], 1, 1⟩ (-2) 0 true).1 = -1 ∧
    (drawPoint ⟨[0], 1, 1⟩ (-2) 0 true).2 = ⟨[0], 1, 1⟩ ∧
    fRound 3 = roundHalfUp 3 := by
  have h := drawPoint_bounds ⟨[0], 1, 1⟩ (-2) 0 true
  have e : fRound (-2 : ℚ) = -1 := by with_unfolding_all rfl
  have hout : fRound (-2 : ℚ) < 0 ∨ fRound (0 : ℚ) < 0 ∨
      ((1 : ℕ) : ℤ) * 2 ≤ fRound (-2 : ℚ) ∨ ((1 : ℕ) : ℤ) * 4 ≤ fRound (0 : ℚ) := by
    rw [e]; exact Or.inl (by norm_num)
  exact ⟨h.1.mpr hout, h.2.1 (h.1.mpr hout), h.2.2 3 (by norm_num)⟩

/-- Truncation toward zero agrees with the floor on nonnegative rationals. -/
lemma truncQ_eq_floor (q : ℚ) (h : 0 ≤ q) : truncQ q = ⌊q⌋ := by
  unfold truncQ
  rw [Int.tdiv_eq_ediv (Rat.num_nonneg.mpr h) (Int.natCast_nonneg _), Rat.floor_def]

/-- The C rounding is the identity on nonnegative integer coordinates. -/
lemma fRound_intCast_nonneg (z : ℤ) (hz : 0 ≤ z) : fRound (z : ℚ) = z := by
  have hz0 : (0 : ℚ) ≤ (z : ℚ) := by exact_mod_cast hz
  unfold fRound
  rw [truncQ_eq_floor _ (by linarith), Int.floor_int_add]
  norm_num

/-- The C rounding is the identity on natural coordinates. -/
lemma fRound_natCast (n : ℕ) : fRound (n : ℚ) = n := by
  have h := fRound_intCast_nonneg (n : ℤ) (Int.natCast_nonneg n)
  rwa [Int.cast_natCast] at h

/-- The pointer offset of `drawPoint` equals the row-times-width-plus-column
form used by the spec. -/
lemma cellOffset_eq (w h x y : ℕ) :
    cellOffset w h x y = (h - 1 - y / 4) * w + x / 2 := by
  unfold cellOffset
  have e : (h - 1 - y / 4) * w = h * w - 1 * w - y / 4 * w := by
    rw [Nat.sub_mul, Nat.sub_mul]
  rw [e, Nat.one_mul, Nat.mul_comm w h]

/-- The cell offset of an in-range pixel is inside the buffer. -/
lemma cellOffset_lt (w h x y : ℕ) (hx : x < 2 * w) (hy : y < 4 * h) :
    cellOffset w h x y < w * h := by
  obtain ⟨k, rfl⟩ : ∃ k, h = k + 1 := ⟨h - 1, by omega⟩
  have hx2 : x / 2 < w := (Nat.div_lt_iff_lt_mul (by norm_num)).mpr (by omega)
  have hy4 : y / 4 < k + 1 := (Nat.div_lt_iff_lt_mul (by norm_num)).mpr (by omega)
  rw [cellOffset_eq]
  calc (k + 1 - 1 - y / 4) * w + x / 2 ≤ k * w + x / 2 :=
        Nat.add_le_add_right (Nat.mul_le_mul_right _ (by omega)) _
    _ < k * w + w := by omega
    _ = w * (k + 1) := by ring

/-- The dot index computed by `drawPoint` is below 8. -/
lemma dotIndex_lt (x y : ℕ) : dotIndex x y < 8 := by
  unfold dotIndex
  omega

/-- Every entry of the dot-position table is a power of two below 256. -/
lemma posVal_is_two_pow (idx : ℕ) (h : idx < 8) :
    ∃ k, k < 8 ∧ braillePositionVals.getD idx 0 = 2 ^ k := by
  interval_cases idx
  · exact ⟨6, by norm_num, by decide⟩
  · exact ⟨7, by norm_num, by decide⟩
  · exact ⟨2, by norm_num, by decide⟩
  · exact ⟨5, by norm_num, by decide⟩
  · exact ⟨1, by norm_num, by decide⟩
  · exact ⟨4, by norm_num, by decide⟩
  · exact ⟨0, by norm_num, by decide⟩
  · exact ⟨3, by norm_num, by decide⟩

/-- Setting a bit makes the masked read nonzero. -/
lemma or_mask_and_mask (old k : ℕ) : (old ||| 2 ^ k) &&& 2 ^ k ≠ 0 := by
  rw [Nat.and_two_pow]
  simp [Nat.testBit_or, Nat.testBit_two_pow_self]

/-- Conjunction with a mask disjoint from `m` reads zero under `m`. -/
lemma and_and_mask_zero (old c m : ℕ) (h : c &&& m = 0) :
    (old &&& c) &&& m = 0 := by
  rw [Nat.and_assoc, h, Nat.and_zero]

/-- Reading back the addressed bit after the set/clear update returns the
written value. -/
lemma mask_readback (old k : ℕ) (v : Bool) (hk : k < 8) :
    ((if v then old ||| 2 ^ k else old &&& (255 ^^^ 2 ^ k)) &&& 2 ^ k != 0) = v := by
  cases v
  · have hz : (255 ^^^ 2 ^ k) &&& 2 ^ k = 0 := by
      interval_cases k <;> decide
    simp [and_and_mask_zero old _ _ hz]
  · simp [bne_iff_ne, or_mask_and_mask old k]

/-- Evaluation of `drawPoint` on an in-range point. -/
lemma drawPoint_in (s : Surface) (fx fy : ℚ) (v : Bool)
    (hx0 : 0 ≤ fRound fx) (hy0 : 0 ≤ fRound fy)
    (hx : fRound fx < (s.width : ℤ) * 2) (hy : fRound fy < (s.height : ℤ) * 4) :
    drawPoint s fx fy v =
      (0, { s with
            data := s.data.set
              (cellOffset s.width s.height (fRound fx).toNat (fRound fy).toNat)
              (if v then
                s.data.getD (cellOffset s.width s.height (fRound fx).toNat (fRound fy).toNat) 0 |||
                  braillePositionVals.getD (dotIndex (fRound fx).toNat (fRound fy).toNat) 0
              else
                s.data.getD (cellOffset s.width s.height (fRound fx).toNat (fRound fy).toNat) 0 &&&
                  (255 ^^^ braillePositionVals.getD (dotIndex (fRound fx).toNat (fRound fy).toNat) 0)) }) := by
  have hguard : ¬ (fRound fx < 0 ∨ fRound fy < 0 ∨ (s.width : ℤ) * 2 ≤ fRound fx ∨
      (s.height : ℤ) * 4 ≤ fRound fy) := by
    push_neg
    exact ⟨hx0, hy0, hx, hy⟩
  simp only [drawPoint]
  rw [if_neg hguard]

/-- C3: for an in-range integer pixel (x, y), `drawPoint` updates exactly
the cell at buffer offset `(height - 1 - y / 4) * width + x / 2`, with the
bit the dot-position table assigns to `(y mod 4, x mod 2)`, and reading
that dot back immediately afterwards returns the plotted value. -/
theorem drawPoint_cell_readback (s : Surface) (x y : ℕ) (v : Bool)
    (hx : x < 2 * s.width) (hy : y < 4 * s.height)
    (hlen : s.data.length = s.width * s.height) :
    (drawPoint s (x : ℚ) (y : ℚ) v).2.data =
      s.data.set ((s.height - 1 - y / 4) * s.width + x / 2)
        (if v then
          s.data.getD ((s.height - 1 - y / 4) * s.width + x / 2) 0 |||
            braillePositionVals.getD (y % 4 * 2 + x % 2) 0
        else
          s.data.getD ((s.height - 1 - y / 4) * s.width + x / 2) 0 &&&
            (255 ^^^ braillePositionVals.getD (y % 4 * 2 + x % 2) 0)) ∧
    readDot (drawPoint s (x : ℚ) (y : ℚ) v).2 x y = v := by
  have hfx : fRound (x : ℚ) = x := fRound_natCast x
  have hfy : fRound (y : ℚ) = y := fRound_natCast y
  have hdp := drawPoint_in s x y v (by rw [hfx]; exact Int.natCast_nonneg x)
    (by rw [hfy]; exact Int.natCast_nonneg y) (by rw [hfx]; omega) (by rw [hfy]; omega)
  rw [hfx, hfy, Int.toNat_natCast, Int.toNat_natCast] at hdp
  have hofflt : cellOffset s.width s.height x y < s.data.length := by
    rw [hlen]; exact cellOffset_lt _ _ _ _ hx hy
  constructor
  · rw [hdp]
    simp only [cellOffset_eq, dotIndex]
  · obtain ⟨k, hk, hmask⟩ := posVal_is_two_pow (dotIndex x y) (dotIndex_lt x y)
    have hget : ∀ b : ℕ,
        (s.data.set (cellOffset s.width s.height x y) b).getD
          (cellOffset s.width s.height x y) 0 = b := by
      intro b
      simp [List.getD_eq_getElem?_getD, List.getElem?_set_self hofflt]
    rw [hdp]
    simp only [readDot]
    rw [hget, hmask]
    exact mask_readback _ k v hk

/-- C3 witness: plotting pixel (3, 2) on a 2-by-1-cell surface and reading
the dot back gives true. -/
theorem drawPoint_cell_readback_witness :
    readDot (drawPoint ⟨[0, 0], 2, 1⟩ ((3 : ℕ) : ℚ) ((2 : ℕ) : ℚ) true).2 3 2 = true :=
  (drawPoint_cell_readback ⟨[0, 0], 2, 1⟩ 3 2 true (by norm_num) (by norm_num) rfl).2

/-- Bits outside the mask are untouched by the set/clear update. -/
lemma testBit_update (old mask : ℕ) (v : Bool) (j : ℕ) (hj : j < 8)
    (hbit : mask.testBit j = false) :
    (if v then old ||| mask else old &&& (255 ^^^ mask)).testBit j = old.testBit j := by
  have h255 : Nat.testBit 255 j = true := by
    have e : (255 : ℕ) = 2 ^ 8 - 1 := by norm_num
    rw [e, Nat.testBit_two_pow_sub_one]
    simp [hj]
  cases v
  · simp [Nat.testBit_and, Nat.testBit_xor, hbit, h255]
  · simp [Nat.testBit_or, hbit]

/-- C7: an in-range `drawPoint` call with value true ORs the addressed bit
into the target cell, with value false ANDs the cell with the complement of
that bit; bits of the target cell outside the mask are unchanged, and every
other cell of the buffer is unchanged. -/
theorem drawPoint_bit_semantics (s : Surface) (fx fy : ℚ) (v : Bool) (off mask : ℕ)
    (hx0 : 0 ≤ fRound fx) (hy0 : 0 ≤ fRound fy)
    (hx : fRound fx < (s.width : ℤ) * 2) (hy : fRound fy < (s.height : ℤ) * 4)
    (hoff : off = cellOffset s.width s.height (fRound fx).toNat (fRound fy).toNat)
    (hmask : mask = braillePositionVals.getD (dotIndex (fRound fx).toNat (fRound fy).toNat) 0)
    (hlen : s.data.length = s.width * s.height) :
    ((drawPoint s fx fy v).2.data.getD off 0 =
      if v then s.data.getD off 0 ||| mask else s.data.getD off 0 &&& (255 ^^^ mask)) ∧
    (∀ j, j < 8 → mask.testBit j = false →
      ((drawPoint s fx fy v).2.data.getD off 0).testBit j = (s.data.getD off 0).testBit j) ∧
    (∀ i, i ≠ off → (drawPoint s fx fy v).2.data.getD i 0 = s.data.getD i 0) := by
  have hxn : (fRound fx).toNat < 2 * s.width := by omega
  have hyn : (fRound fy).toNat < 4 * s.height := by omega
  have hofflt : cellOffset s.width s.height (fRound fx).toNat (fRound fy).toNat <
      s.data.length := by
    rw [hlen]; exact cellOffset_lt _ _ _ _ hxn hyn
  subst hoff hmask
  rw [drawPoint_in s fx fy v hx0 hy0 hx hy]
  have hget : ∀ b : ℕ,
      (s.data.set (cellOffset s.width s.height (fRound fx).toNat (fRound fy).toNat) b).getD
        (cellOffset s.width s.height (fRound fx).toNat (fRound fy).toNat) 0 = b := by
    intro b
    simp [List.getD_eq_getElem?_getD, List.getElem?_set_self hofflt]
  refine ⟨hget _, ?_, ?_⟩
  · intro j hj hbit
    rw [hget]
    exact testBit_update _ _ v j hj hbit
  · intro i hi
    simp [List.getD_eq_getElem?_getD, List.getElem?_set_ne (Ne.symm hi)]

/-- C7 witness: plotting pixel (2, 1) with value false on a 2-by-1-cell
surface leaves the other cell untouched. -/
theorem drawPoint_bit_semantics_witness :
    (drawPoint ⟨[7, 0], 2, 1⟩ 2 1 false).2.data.getD 0 0 = [7, 0].getD 0 0 :=
  (drawPoint_bit_semantics ⟨[7, 0], 2, 1⟩ 2 1 false 1 4
    (by with_unfolding_all decide) (by with_unfolding_all decide)
    (by with_unfolding_all decide) (by with_unfolding_all decide)
    (by with_unfolding_all decide) (by with_unfolding_all decide) rfl).2.2 0 (by decide)

/-- C4 (code defect): for the segment from (0,0) to (1,-5) the slope is -5,
so the claim requires the Y-stepping branch; the code tests `slope < 1`
without an absolute value and takes the X-stepping branch, jumping from
(0,0) straight to (1,-5). -/
theorem drawLine_branch_negative_slope :
    lineSlope 0 0 1 (-5) = -5 ∧ ¬ (|lineSlope 0 0 1 (-5)| < 1) ∧
    drawLinePoints 10 0 0 1 (-5) = some [(0, 0), (1, -5)] := by
  have hs : lineSlope 0 0 1 (-5) = -5 := by with_unfolding_all rfl
  refine ⟨hs, ?_, by with_unfolding_all rfl⟩
  rw [hs, abs_lt]
  norm_num

/-- One pass of the oscillating loop, first state: from (0,0) the X branch
steps to (1,-5). -/
lemma drawLineLoop_cycleA (n : ℕ) :
    drawLineLoop false (-5) 0 (1/2) (-5/2) (n + 1) 0 0 =
      (drawLineLoop false (-5) 0 (1/2) (-5/2) n 1 (-5)).map ((1, -5) :: ·) := by
  with_unfolding_all rfl

/-- One pass of the oscillating loop, second state: from (1,-5) the X branch
steps back to (0,0). -/
lemma drawLineLoop_cycleB (n : ℕ) :
    drawLineLoop false (-5) 0 (1/2) (-5/2) (n + 1) 1 (-5) =
      (drawLineLoop false (-5) 0 (1/2) (-5/2) n 0 0).map ((0, 0) :: ·) := by
  with_unfolding_all rfl

/-- The loop guard never fails from either state of the 2-cycle. -/
lemma drawLineLoop_cycle (n : ℕ) :
    drawLineLoop false (-5) 0 (1/2) (-5/2) n 0 0 = none ∧
    drawLineLoop false (-5) 0 (1/2) (-5/2) n 1 (-5) = none := by
  induction n with
  | zero => exact ⟨by with_unfolding_all rfl, by with_unfolding_all rfl⟩
  | succ n ih =>
    refine ⟨?_, ?_⟩
    · rw [drawLineLoop_cycleA, ih.2]; rfl
    · rw [drawLineLoop_cycleB, ih.1]; rfl

/-- C5 (code defect): `drawLine` from (0,0) to (0.5,-2.5) never terminates.
The slope is -5, the `slope < 1` test sends it to the X-stepping branch,
and x1 oscillates between 0 and 1 forever while the guard `|y1-y2| > 1`
stays true; no fuel bound suffices.  (All inputs here are exactly
representable floats, so the C program loops forever on them too.) -/
theorem drawLine_nonterminating :
    ∀ fuel : ℕ, drawLinePoints fuel 0 0 (1/2) (-5/2) = none := by
  intro fuel
  have h := (drawLineLoop_cycle fuel).1
  unfold drawLinePoints
  have e1 : (decide ((0 : ℚ) = 1/2)) = false := by with_unfolding_all rfl
  have e2 : lineSlope 0 0 (1/2) (-5/2) = -5 := by with_unfolding_all rfl
  have e3 : lineYint 0 0 (1/2) (-5/2) = 0 := by with_unfolding_all rfl
  rw [e1, e2, e3, h]
  rfl

/-- Each cell contributes exactly three output bytes. -/
lemma renderBody_length (l : List ℕ) : (renderBody l).length = 3 * l.length := by
  induction l with
  | nil => rfl
  | cons b rest ih =>
    simp only [renderBody, List.length_append, ih, bytes3LE, List.length_cons,
      List.length_nil]
    omega

/-- C6: `render` emits exactly 6 + 3 + 3*(width*height) + 3 bytes: the
hide-cursor sequence, the home sequence, three bytes per cell in buffer
order, and a final home sequence; on an all-zero 2x2 surface the output is
exactly hide-cursor, home, four blank-braille glyphs, home. -/
theorem render_framing (s : Surface) (hlen : s.data.length = s.width * s.height) :
    (render s).length = 6 + 3 + 3 * (s.width * s.height) + 3 ∧
    render s = hideCursorSeq ++ cursorHomeSeq ++ renderBody s.data ++ cursorHomeSeq ∧
    render ⟨[0, 0, 0, 0], 2, 2⟩ =
      [27, 91, 63, 50, 53, 108, 27, 91, 72,
       226, 160, 128, 226, 160, 128, 226, 160, 128, 226, 160, 128, 27, 91, 72] := by
  refine ⟨?_, rfl, by decide⟩
  simp only [render, List.length_append, renderBody_length, hlen, hideCursorSeq,
    cursorHomeSeq, List.length_cons, List.length_nil]
  try omega

/-- C6 witness: the byte count on the all-zero 2x2 surface. -/
theorem render_framing_witness :
    (render ⟨[0, 0, 0, 0], 2, 2⟩).length = 6 + 3 + 3 * (2 * 2) + 3 :=
  (render_framing ⟨[0, 0, 0, 0], 2, 2⟩ rfl).1

set_option maxRecDepth 40000 in
/-- C9: every braille table entry is the 3-byte UTF-8 encoding of code
point 0x2800 + v, with byte pattern 1110xxxx 10xxxxxx 10xxxxxx, and the 256
entries are pairwise distinct. -/
theorem brailleTab_utf8_injective :
    (∀ v : Fin 256,
      (bytes3LE (brailleTab v.val)).length = 3 ∧
      (bytes3LE (brailleTab v.val)).getD 0 0 >>> 4 = 0xE ∧
      (bytes3LE (brailleTab v.val)).getD 1 0 >>> 6 = 2 ∧
      (bytes3LE (brailleTab v.val)).getD 2 0 >>> 6 = 2 ∧
      utf8Decode3 (bytes3LE (brailleTab v.val)) = 0x2800 + v.val) ∧
    ∀ v w : Fin 256, v ≠ w →
      bytes3LE (brailleTab v.val) ≠ bytes3LE (brailleTab w.val) := by
  have hdec : ∀ v : Fin 256, utf8Decode3 (bytes3LE (brailleTab v.val)) = 0x2800 + v.val := by
    decide
  have hstruct : ∀ v : Fin 256,
      (bytes3LE (brailleTab v.val)).length = 3 ∧
      (bytes3LE (brailleTab v.val)).getD 0 0 >>> 4 = 0xE ∧
      (bytes3LE (brailleTab v.val)).getD 1 0 >>> 6 = 2 ∧
      (bytes3LE (brailleTab v.val)).getD 2 0 >>> 6 = 2 := by
    decide
  refine ⟨fun v => ⟨(hstruct v).1, (hstruct v).2.1, (hstruct v).2.2.1, (hstruct v).2.2.2,
    hdec v⟩, ?_⟩
  intro v w hvw heq
  apply hvw
  have hv := hdec v
  rw [heq, hdec w] at hv
  exact Fin.ext (by omega)

/-- C9 witness: entries 0 and 1 differ. -/
theorem brailleTab_utf8_injective_witness :
    bytes3LE (brailleTab (0 : Fin 256).val) ≠ bytes3LE (brailleTab (1 : Fin 256).val) :=
  brailleTab_utf8_injective.2 0 1 (by decide)

/-- C8 (counterexample): with xStart = 0, xEnd = 0.1 and the constant
quadratic y = 19, the code samples once at x = 0.2 with plotted y = 1
(truncate 19 to int, integer-divide by 10), while the claim as worded
samples at x = 0 with y = round(19 / 10) = 2. -/
theorem drawCurve_spec_mismatch :
    drawCurvePoints 5 0 (1/10) 0 0 19 = some [(1/5, 1)] ∧
    drawCurveSpecPoints 5 0 (1/10) 0 0 19 = some [(0, 2)] ∧
    (some [((1/5 : ℚ), (1 : ℚ))] : Option (List (ℚ × ℚ))) ≠ some [(0, 2)] := by
  refine ⟨by with_unfolding_all rfl, by with_unfolding_all rfl, ?_⟩
  intro h
  simp only [Option.some.injEq, List.cons.injEq, Prod.mk.injEq] at h
  exact absurd h.1.1 (by norm_num)

/-- Every finished run of the curve loop samples exactly at
x1 + 0.2, x1 + 0.4, ... with the truncating Y computation, while the
pre-step x is below xEnd, and stops as soon as it is not. -/
lemma drawCurveLoop_samples (fuel : ℕ) (x2 a b c : ℚ) :
    ∀ (x1 : ℚ) (pts : List (ℚ × ℚ)), drawCurveLoop x2 a b c fuel x1 = some pts →
      (∀ i, ∀ hi : i < pts.length,
        pts.get ⟨i, hi⟩ = (x1 + ((i : ℚ) + 1) * (1/5),
          (curveY a b c (x1 + ((i : ℚ) + 1) * (1/5)) : ℚ)) ∧
        x1 + (i : ℚ) * (1/5) < x2) ∧
      ¬ (x1 + (pts.length : ℚ) * (1/5) < x2) := by
  induction fuel with
  | zero =>
    intro x1 pts h
    rw [drawCurveLoop] at h
    by_cases hc : x1 < x2
    · rw [if_pos hc] at h
      exact absurd h (by simp)
    · rw [if_neg hc] at h
      obtain rfl : pts = [] := (Option.some_inj.mp h).symm
      refine ⟨fun i hi => absurd hi (by simp), by simpa using hc⟩
  | succ n ih =>
    intro x1 pts h
    rw [drawCurveLoop] at h
    by_cases hc : x1 < x2
    · rw [if_pos hc] at h
      dsimp only at h
      obtain ⟨pts2, h2, rfl⟩ : ∃ pts2, drawCurveLoop x2 a b c n (x1 + 1/5) = some pts2 ∧
          pts = (x1 + 1/5, (curveY a b c (x1 + 1/5) : ℚ)) :: pts2 := by
        cases he : drawCurveLoop x2 a b c n (x1 + 1/5) with
        | none => rw [he] at h; exact absurd h (by simp)
        | some pts2 =>
          rw [he] at h
          exact ⟨pts2, rfl, by simpa using h.symm⟩
      obtain ⟨hmem, hterm⟩ := ih (x1 + 1/5) pts2 h2
      constructor
      · intro i hi
        cases i with
        | zero =>
          refine ⟨?_, by simpa using hc⟩
          show (x1 + 1/5, (curveY a b c (x1 + 1/5) : ℚ)) = _
          have ex : x1 + 1/5 = x1 + (((0 : ℕ) : ℚ) + 1) * (1/5) := by push_cast; ring
          rw [← ex]
        | succ i =>
          have hi2 : i < pts2.length := by simpa using hi
          obtain ⟨hg, hlt⟩ := hmem i hi2
          constructor
          · show pts2.get ⟨i, hi2⟩ = _
            rw [hg]
            have ex : x1 + 1/5 + ((i : ℚ) + 1) * (1/5) =
                x1 + ((((i + 1) : ℕ) : ℚ) + 1) * (1/5) := by push_cast; ring
            rw [ex]
          · have : x1 + 1/5 + (i : ℚ) * (1/5) < x2 := hlt
            push_cast
            linarith
      · rw [not_lt] at hterm ⊢
        simp only [List.length_cons]
        push_cast
        linarith
    · rw [if_neg hc] at h
      obtain rfl : pts = [] := (Option.some_inj.mp h).symm
      refine ⟨fun i hi => absurd hi (by simp), by simpa using hc⟩

/-- C8 (amended): `drawCurve` increments x by 0.2 before each sample, so
every finished run samples exactly at xStart + 0.2*(i+1); each sampled Y is
the quadratic value truncated to an integer and then integer-divided by 10
(truncation toward zero, no rounding); a sample exists for index i exactly
while xStart + 0.2*i is still below xEnd. -/
theorem drawCurve_samples (fuel : ℕ) (x1 x2 a b c : ℚ) (pts : List (ℚ × ℚ))
    (h : drawCurvePoints fuel x1 x2 a b c = some pts) :
    (∀ i, ∀ hi : i < pts.length,
      pts.get ⟨i, hi⟩ = (x1 + ((i : ℚ) + 1) * (1/5),
        (curveY a b c (x1 + ((i : ℚ) + 1) * (1/5)) : ℚ)) ∧
      x1 + (i : ℚ) * (1/5) < x2) ∧
    ¬ (x1 + (pts.length : ℚ) * (1/5) < x2) :=
  drawCurveLoop_samples fuel x2 a b c x1 pts h

/-- C8 witness: the single sample of the run from the counterexample input
sits at 0 + (0+1)*0.2 with the truncated Y value 1. -/
theorem drawCurve_samples_witness :
    [((1/5 : ℚ), (1 : ℚ))].get ⟨0, by norm_num⟩ =
      ((0 : ℚ) + (((0 : ℕ) : ℚ) + 1) * (1/5),
        (curveY 0 0 19 ((0 : ℚ) + (((0 : ℕ) : ℚ) + 1) * (1/5)) : ℚ)) ∧
    (0 : ℚ) + (((0 : ℕ) : ℚ)) * (1/5) < 1/10 :=
  (drawCurve_samples 5 0 (1/10) 0 0 19 [(1/5, 1)]
    (by with_unfolding_all rfl)).1 0 (by norm_num)

/-- C10 (counterexample): reversing the endpoints of the segment from
(0,0) to (5.5,2.75) changes the lit dots in the middle of the line, far
from either endpoint: the forward call lights dot (3,2), the reversed call
lights (3,1) instead.  The two runs sample x on grids offset by one half,
so the rounded dots disagree at interior samples, beyond any endpoint
tolerance. -/
theorem drawLine_reverse_mismatch :
    (drawLinePoints 20 0 0 (11/2) (11/4)).map dotsOf =
      some [(0, 0), (1, 1), (2, 1), (3, 2), (4, 2), (5, 3)] ∧
    (drawLinePoints 20 (11/2) (11/4) 0 0).map dotsOf =
      some [(6, 3), (5, 2), (4, 2), (3, 1), (2, 1), (1, 0)] ∧
    (drawLine 20 ⟨List.replicate 8 0, 4, 2⟩ 0 0 (11/2) (11/4)).map
        (fun t => readDot t 3 2) = some true ∧
    (drawLine 20 ⟨List.replicate 8 0, 4, 2⟩ (11/2) (11/4) 0 0).map
        (fun t => readDot t 3 2) = some false := by
  exact ⟨by with_unfolding_all rfl, by with_unfolding_all rfl,
    by with_unfolding_all rfl, by with_unfolding_all rfl⟩

/-- Distance helper of the loop guard is zero on equal arguments. -/
lemma fAbs_self (x : ℚ) : fAbs x x = 0 := by
  unfold fAbs
  rw [if_neg (lt_irrefl x)]
  ring

/-- The loop guard on integer Y coordinates says the gap is at least 2. -/
lemma fAbs_intCast_gt_one (a b : ℤ) : fAbs (a : ℚ) (b : ℚ) > 1 ↔ 2 ≤ (b - a).natAbs := by
  unfold fAbs
  split_ifs with h
  · have hab : b < a := by exact_mod_cast h
    rw [gt_iff_lt, show (1 : ℚ) = ((1 : ℤ) : ℚ) from by norm_num,
      show (a : ℚ) - (b : ℚ) = (((a - b) : ℤ) : ℚ) from by push_cast; ring, Int.cast_lt]
    omega
  · have hab : a ≤ b := by
      rw [not_lt] at h
      exact_mod_cast h
    rw [gt_iff_lt, show (1 : ℚ) = ((1 : ℤ) : ℚ) from by norm_num,
      show (b : ℚ) - (a : ℚ) = (((b - a) : ℤ) : ℚ) from by push_cast; ring, Int.cast_lt]
    omega

/-- `vertYs` always starts with y1. -/
lemma vertYs_eq_cons (y1 y2 : ℤ) : vertYs y1 y2 = y1 :: (vertYs y1 y2).tail := by
  unfold vertYs
  split_ifs with h1 h2
  · rfl
  · obtain ⟨m, hm⟩ : ∃ m, (y2 - y1).toNat = m + 1 := ⟨(y2 - y1).toNat - 1, by omega⟩
    rw [hm, List.range_succ_eq_map, List.map_cons]
    simp
  · obtain ⟨m, hm⟩ : ∃ m, (y1 - y2).toNat = m + 1 := ⟨(y1 - y2).toNat - 1, by omega⟩
    rw [hm, List.range_succ_eq_map, List.map_cons]
    simp

/-- Adjacent or equal endpoints leave no Y values after the first. -/
lemma vertYs_tail_nil (y1 y2 : ℤ) (h : (y2 - y1).natAbs ≤ 1) :
    (vertYs y1 y2).tail = [] := by
  unfold vertYs
  split_ifs with h1 h2
  · rfl
  · have e : (y2 - y1).toNat = 1 := by omega
    rw [e]
    rfl
  · have e : (y1 - y2).toNat = 1 := by omega
    rw [e]
    rfl

/-- Stepping up by one peels y1 off the front. -/
lemma vertYs_step_up (y1 y2 : ℤ) (h : y1 + 1 < y2) :
    vertYs y1 y2 = y1 :: vertYs (y1 + 1) y2 := by
  have h1 : ¬ y1 = y2 := by omega
  have h2 : y1 < y2 := by omega
  have h3 : ¬ y1 + 1 = y2 := by omega
  unfold vertYs
  rw [if_neg h1, if_pos h2, if_neg h3, if_pos h]
  obtain ⟨m, hm⟩ : ∃ m, (y2 - y1).toNat = m + 1 := ⟨(y2 - y1).toNat - 1, by omega⟩
  have hm2 : (y2 - (y1 + 1)).toNat = m := by omega
  rw [hm, hm2, List.range_succ_eq_map, List.map_cons, List.map_map]
  congr 1
  · simp
  · apply List.map_congr_left
    intro i _
    simp only [Function.comp_apply]
    push_cast
    ring

/-- Stepping down by one peels y1 off the front. -/
lemma vertYs_step_down (y1 y2 : ℤ) (h : y2 + 1 < y1) :
    vertYs y1 y2 = y1 :: vertYs (y1 - 1) y2 := by
  have h1 : ¬ y1 = y2 := by omega
  have h2 : ¬ y1 < y2 := by omega
  have h3 : ¬ y1 - 1 = y2 := by omega
  have h4 : ¬ y1 - 1 < y2 := by omega
  unfold vertYs
  rw [if_neg h1, if_neg h2, if_neg h3, if_neg h4]
  obtain ⟨m, hm⟩ : ∃ m, (y1 - y2).toNat = m + 1 := ⟨(y1 - y2).toNat - 1, by omega⟩
  have hm2 : (y1 - 1 - y2).toNat = m := by omega
  rw [hm, hm2, List.range_succ_eq_map, List.map_cons, List.map_map]
  congr 1
  · simp
  · apply List.map_congr_left
    intro i _
    simp only [Function.comp_apply]
    push_cast
    ring

/-- Membership in `vertYs` is the half-open integer range from y1 toward
y2 (including y1, excluding y2, except in the degenerate equal case). -/
lemma mem_vertYs_iff (y1 y2 z : ℤ) :
    z ∈ vertYs y1 y2 ↔
      (y1 = y2 ∧ z = y1) ∨ (y1 < y2 ∧ y1 ≤ z ∧ z < y2) ∨
        (y2 < y1 ∧ y2 < z ∧ z ≤ y1) := by
  unfold vertYs
  split_ifs with h1 h2
  · subst h1
    simp only [List.mem_singleton]
    constructor
    · intro h
      exact Or.inl ⟨by trivial, h⟩
    · rintro (⟨_, h⟩ | ⟨h, _⟩ | ⟨h, _⟩)
      · exact h
      · exact absurd h (lt_irrefl _)
      · exact absurd h (lt_irrefl _)
  · simp only [List.mem_map, List.mem_range]
    constructor
    · rintro ⟨i, hi, rfl⟩
      omega
    · intro hz
      exact ⟨(z - y1).toNat, by omega, by omega⟩
  · simp only [List.mem_map, List.mem_range]
    constructor
    · rintro ⟨i, hi, rfl⟩
      omega
    · intro hz
      exact ⟨(y1 - z).toNat, by omega, by omega⟩

/-- Every value of `vertYs` lies between the endpoints. -/
lemma mem_vertYs_bounds (y1 y2 z : ℤ) (h : z ∈ vertYs y1 y2) :
    min y1 y2 ≤ z ∧ z ≤ max y1 y2 := by
  rw [mem_vertYs_iff] at h
  omega

/-- The vertical branch of the line loop produces exactly the integer Y
sequence `vertYs` (after the initial point), for any fuel at least the
endpoint gap.  The slope and intercept arguments are irrelevant in this
branch. -/
lemma drawLineLoop_vertical (sl yi x : ℚ) :
    ∀ (fuel : ℕ) (y1 y2 : ℤ), (y2 - y1).natAbs ≤ fuel + 1 →
      drawLineLoop true sl yi x (y2 : ℚ) fuel x (y1 : ℚ) =
        some ((vertYs y1 y2).tail.map fun z : ℤ => (x, (z : ℚ))) := by
  intro fuel
  induction fuel with
  | zero =>
    intro y1 y2 hle
    have hguard : ¬ (fAbs x x > 1 ∨ fAbs (y1 : ℚ) (y2 : ℚ) > 1) := by
      push_neg
      refine ⟨by rw [fAbs_self]; norm_num, ?_⟩
      by_contra hc
      push_neg at hc
      have := (fAbs_intCast_gt_one y1 y2).mp hc
      omega
    rw [drawLineLoop, if_neg hguard, vertYs_tail_nil y1 y2 (by omega)]
    rfl
  | succ n ih =>
    intro y1 y2 hle
    by_cases hsmall : (y2 - y1).natAbs ≤ 1
    · have hguard : ¬ (fAbs x x > 1 ∨ fAbs (y1 : ℚ) (y2 : ℚ) > 1) := by
        push_neg
        refine ⟨by rw [fAbs_self]; norm_num, ?_⟩
        by_contra hc
        push_neg at hc
        have := (fAbs_intCast_gt_one y1 y2).mp hc
        omega
      rw [drawLineLoop, if_neg hguard, vertYs_tail_nil y1 y2 (by omega)]
      rfl
    · have hguard : fAbs x x > 1 ∨ fAbs (y1 : ℚ) (y2 : ℚ) > 1 :=
        Or.inr ((fAbs_intCast_gt_one y1 y2).mpr (by omega))
      rw [drawLineLoop, if_pos hguard]
      simp only [eq_self_iff_true, if_true]
      by_cases hdir : y1 < y2
      · have hdirQ : (y1 : ℚ) < (y2 : ℚ) := by exact_mod_cast hdir
        rw [if_pos hdirQ]
        have ecast : (y1 : ℚ) + 1 = ((y1 + 1 : ℤ) : ℚ) := by push_cast; ring
        rw [ecast, ih (y1 + 1) y2 (by omega), Option.map_some']
        rw [vertYs_step_up y1 y2 (by omega), List.tail_cons]
        conv_rhs => rw [vertYs_eq_cons (y1 + 1) y2]
        rw [List.map_cons]
      · have hdirQ : ¬ ((y1 : ℚ) < (y2 : ℚ)) := by exact_mod_cast hdir
        rw [if_neg hdirQ]
        have ecast : (y1 : ℚ) + (-1) = ((y1 - 1 : ℤ) : ℚ) := by push_cast; ring
        rw [ecast, ih (y1 - 1) y2 (by omega), Option.map_some']
        rw [vertYs_step_down y1 y2 (by omega), List.tail_cons]
        conv_rhs => rw [vertYs_eq_cons (y1 - 1) y2]
        rw [List.map_cons]

/-- Rounding the plotted points of a vertical run with nonnegative integer
endpoints gives exactly the `vertYs` dots. -/
lemma dotsOf_vertical (x : ℕ) (a b : ℤ) (ha : 0 ≤ a) (hb : 0 ≤ b) :
    dotsOf (((x : ℚ), (a : ℚ)) :: ((vertYs a b).tail.map fun z : ℤ => ((x : ℚ), (z : ℚ)))) =
      (vertYs a b).map fun z : ℤ => ((x : ℤ), z) := by
  conv_rhs => rw [vertYs_eq_cons a b]
  unfold dotsOf
  rw [List.map_cons, List.map_cons, List.map_map]
  congr 1
  · rw [fRound_natCast, fRound_intCast_nonneg a ha]
  · apply List.map_congr_left
    intro z hz
    have hzb := mem_vertYs_bounds a b z (List.mem_of_mem_tail hz)
    have hz0 : 0 ≤ z := by omega
    simp only [Function.comp_apply]
    rw [fRound_natCast, fRound_intCast_nonneg z hz0]

/-- C10 (amended): reversing the endpoints can change interior dots in
general, but for a vertical segment with nonnegative integer coordinates
the forward and reversed calls light the same dots except possibly at the
two endpoint dots themselves. -/
theorem drawLine_reverse_vertical (x y1 y2 : ℕ) (d : ℤ × ℤ)
    (h1 : d ≠ ((x : ℤ), (y1 : ℤ))) (h2 : d ≠ ((x : ℤ), (y2 : ℤ))) :
    (drawLinePoints ((y2 - y1) + (y1 - y2)) (x : ℚ) (y1 : ℚ) (x : ℚ) (y2 : ℚ)).map
        (fun pts => decide (d ∈ dotsOf pts)) =
    (drawLinePoints ((y2 - y1) + (y1 - y2)) (x : ℚ) (y2 : ℚ) (x : ℚ) (y1 : ℚ)).map
        (fun pts => decide (d ∈ dotsOf pts)) := by
  unfold drawLinePoints
  have einf : (decide ((x : ℚ) = (x : ℚ))) = true := by simp
  rw [einf]
  have e1 : ((y1 : ℕ) : ℚ) = (((y1 : ℕ) : ℤ) : ℚ) := by push_cast; ring
  have e2 : ((y2 : ℕ) : ℚ) = (((y2 : ℕ) : ℤ) : ℚ) := by push_cast; ring
  rw [e1, e2]
  rw [drawLineLoop_vertical _ _ _ _ (y1 : ℤ) (y2 : ℤ) (by omega),
    drawLineLoop_vertical _ _ _ _ (y2 : ℤ) (y1 : ℤ) (by omega)]
  rw [Option.map_some', Option.map_some', Option.map_some', Option.map_some']
  congr 1
  rw [decide_eq_decide]
  rw [dotsOf_vertical x (y1 : ℤ) (y2 : ℤ) (Int.natCast_nonneg y1) (Int.natCast_nonneg y2),
    dotsOf_vertical x (y2 : ℤ) (y1 : ℤ) (Int.natCast_nonneg y2) (Int.natCast_nonneg y1)]
  obtain ⟨d1, d2⟩ := d
  rw [Ne, Prod.mk.injEq] at h1 h2
  simp only [List.mem_map, Prod.mk.injEq]
  constructor
  · rintro ⟨z, hz, hx, rfl⟩
    refine ⟨z, ?_, hx, rfl⟩
    rw [mem_vertYs_iff] at hz ⊢
    omega
  · rintro ⟨z, hz, hx, rfl⟩
    refine ⟨z, ?_, hx, rfl⟩
    rw [mem_vertYs_iff] at hz ⊢
    omega

/-- C10 witness: for the vertical segment from (0,0) to (0,3) the interior
dot (0,1) is lit by both endpoint orders. -/
theorem drawLine_reverse_vertical_witness :
    (drawLinePoints ((3 - 0) + (0 - 3)) ((0 : ℕ) : ℚ) ((0 : ℕ) : ℚ) ((0 : ℕ) : ℚ)
        ((3 : ℕ) : ℚ)).map (fun pts => decide (((0 : ℤ), (1 : ℤ)) ∈ dotsOf pts)) =
    (drawLinePoints ((3 - 0) + (0 - 3)) ((0 : ℕ) : ℚ) ((3 : ℕ) : ℚ) ((0 : ℕ) : ℚ)
        ((0 : ℕ) : ℚ)).map (fun pts => decide (((0 : ℤ), (1 : ℤ)) ∈ dotsOf pts)) :=
  drawLine_reverse_vertical 0 0 3 ((0 : ℤ), (1 : ℤ)) (by decide) (by decide)

end Louis
